import Mathlib

set_option maxRecDepth 8000

/-!
Verification of the RSA protocol layer (`src/rsa.rs`) of the
thss-cryptography-rsa repository, against its natural-language specification.

Rust strings (`String` / `&str`) are modelled as lists of bytes
(`List Nat`, each element < 256), since every string operation the code
performs (into_bytes, from_utf8, find, split_at, split, strip_suffix) works
on the UTF-8 byte representation.  A `none` result of an `Option`-valued
embedding models a Rust panic (expect / out-of-range slice); an
`Except String` value models the `Result<_, &'static str>` return channel.

The arbitrary-precision integer type (`bigint.rs`) and the number-theory
algorithms (`algorithms.rs`) are not part of the provided sources; they are
modelled from the specification (sections 3, 4.1 to 4.5), as noted on each
definition.  Everything in the `rsa.rs` protocol layer is translated
directly from the source.
-/

/-- Radix of one BigInt limb: limbs are u64 values (spec section 3,
`BigInt::VALUE_LEN` = 64 bits per limb). -/
def LIMB : Nat := 2 ^ 64

/-- Bits per limb (`BigInt::VALUE_LEN`). -/
def VALUE_LEN : Nat := 64

/-- Modelled from the spec: the BigInt record of `bigint.rs` (missing from
src/) as used by `rsa.rs`: an ordered sequence of fixed-width limbs,
least-significant first, plus the count of significant limbs (spec section 3).
`rsa.rs` constructs values of this struct literally (`BigInt { value, length }`)
and reads `value[0..length]`. -/
structure BigInt where
  value : List Nat
  length : Nat
  deriving DecidableEq

/-- Numeric value of a little-endian limb list. -/
def limbsVal : List Nat → Nat
  | [] => 0
  | v :: rest => v + LIMB * limbsVal rest

/-- Modelled from the spec: the numeric value of a BigInt is fully determined
by limbs `[0, length)` (spec section 3). -/
def BigInt.val (x : BigInt) : Nat := limbsVal (x.value.take x.length)

/-- Little-endian base-2^64 digits of a natural number, fuel-driven so that
the definition reduces in the kernel.  `[]` for zero. -/
def natToLimbsAux : Nat → Nat → List Nat
  | 0, _ => []
  | fuel + 1, n => if n = 0 then [] else n % LIMB :: natToLimbsAux fuel (n / LIMB)

/-- Modelled from the spec: construction of a canonical BigInt holding a given
numeric value, with `length` the number of significant limbs and `length = 1`
for zero (spec section 3: `length >= 1`).  Stands in for the results of the
missing `bigint.rs` arithmetic, which the spec requires to carry exact values
with a significant `length`. -/
def BigInt.ofNat (n : Nat) : BigInt :=
  if n = 0 then ⟨[0], 1⟩ else ⟨natToLimbsAux n n, (natToLimbsAux n n).length⟩

/-- `ONE` from `bigint.rs` (missing from src/): the constant 1. -/
def ONE : BigInt := ⟨[1], 1⟩

/-- Fixed public exponent `E` of `src/rsa.rs` line 5. -/
def E : Nat := 114493

/-- `E_BIGINT` of `src/rsa.rs` line 6: `BigInt::from_slice(&[E])`. -/
def E_BIGINT : BigInt := ⟨[E], 1⟩

/-- Modelled from the spec: `mod_div` of `bigint.rs` (missing from src/),
division with remainder; fails (arithmetic error) on a zero divisor
(spec section 4.1). -/
def mod_div (a b : BigInt) : Option (BigInt × BigInt) :=
  if b.val = 0 then none
  else some (BigInt.ofNat (a.val / b.val), BigInt.ofNat (a.val % b.val))

/-- Modelled from the spec: `to_int` narrowing of `bigint.rs` (missing from
src/); succeeds only when the value fits one machine word (spec section 4.1). -/
def BigInt.to_int (x : BigInt) : Option Nat :=
  if x.val < LIMB then some x.val else none

/-- Modelled from the spec: BigInt multiplication of `bigint.rs` (missing from
src/); exact on numeric values (spec section 4.1). -/
def bigMul (a b : BigInt) : BigInt := BigInt.ofNat (a.val * b.val)

/-- Modelled from the spec: BigInt subtraction of `bigint.rs` (missing from
src/); the caller guarantees a non-negative result (spec section 4.1). -/
def bigSub (a b : BigInt) : BigInt := BigInt.ofNat (a.val - b.val)

/-- Modelled from the spec: the Barrett reduction constant `barrett_m`
precomputed from a modulus (spec section 4.2).  Its exact value never affects
results, because Barrett reduction is required to equal naive-division
reduction for all inputs. -/
def BigInt.barrett_m (n : BigInt) : BigInt :=
  BigInt.ofNat (2 ^ (2 * VALUE_LEN * n.length) / n.val)

/-- Modelled from the spec: `algorithms::barrett_mod` (missing from src/),
which must return exactly `x mod n` for every input (spec section 4.2; the
Barrett constant is a pure performance device). -/
def barrett_mod (x : Nat) (bm n : BigInt) : Nat := x % n.val

/-- Fuel-driven square-and-multiply modular exponentiation; the fuel only
bounds the recursion depth, the exponent halves each step. -/
def natModPowAux : Nat → Nat → Nat → Nat → Nat
  | 0, _, _, n => 1 % n
  | fuel + 1, b, e, n =>
    if e = 0 then 1 % n
    else
      let h := natModPowAux fuel (b * b % n) (e / 2) n
      if e % 2 = 1 then h * b % n else h

/-- Modelled from the spec: `algorithms::mod_power` (missing from src/),
square-and-multiply modular exponentiation via the Barrett engine; must equal
`base ^ exponent mod modulus` (spec section 4.4). -/
def mod_power (m e : BigInt) (bm n : BigInt) : BigInt :=
  BigInt.ofNat (natModPowAux (e.val + 1) (m.val % n.val) e.val n.val)

/-- Fuel-driven extended Euclid over the integers, returning
`(gcd a b, x, y)` with `a * x + b * y = gcd a b`. -/
def egcdAux : Nat → Nat → Nat → Nat × Int × Int
  | 0, a, _ => (a, 1, 0)
  | fuel + 1, a, b =>
    if b = 0 then (a, 1, 0)
    else
      let p := egcdAux fuel b (a % b)
      (p.1, p.2.2, p.2.1 - (a / b : Nat) * p.2.2)

/-- Modelled from the spec: `algorithms::extended_euclid` (missing from src/).
It computes `gcd(a, b)` and Bezout coefficients expressed as residues modulo
the working modulus `phi`, over unsigned arithmetic only (spec section 4.5). -/
def extended_euclid (a b phi : Nat) : Nat × Nat × Nat :=
  let p := egcdAux (b + 1) a b
  (p.1, (p.2.1 % (phi : Int)).toNat, (p.2.2 % (phi : Int)).toNat)

/-- The unsigned back-substitution of `gen_keys` (`src/rsa.rs` lines 35-39):
`div_v = (v * div) mod phi`; add `phi` to `u` before subtracting whenever
`u < div_v`; reduce the difference mod `phi`. -/
def derive_d (phi u v ediv : Nat) : Nat :=
  let div_v := (v * ediv) % phi
  let u2 := if u < div_v then u + phi else u
  (u2 - div_v) % phi

/-- Modelled from the spec: `BigInt::rand` (missing from src/), random
generation of a requested limb count (spec section 4.1), reading limbs from an
explicit stream that models the process-wide randomness source
(spec section 5). -/
def randBig (k : Nat) (s : List Nat) : Option (BigInt × List Nat) :=
  if k ≤ s.length then some (⟨(s.take k).map (· % LIMB), k⟩, s.drop k) else none

/-- `num.value[0] |= 1` of `src/rsa.rs` line 12; a panic (`none`) if the limb
list is empty. -/
def setLowBit (x : BigInt) : Option BigInt :=
  match x.value with
  | [] => none
  | v :: rest => some ⟨(v ||| 1) :: rest, x.length⟩

/-- `gen_prime` of `src/rsa.rs` lines 8-22, with the probable-prime test
`mr` (the missing `algorithms::miller_rabin`) abstracted as a boolean
predicate, an explicit randomness stream, and fuel for the retry loop. -/
def gen_prime (mr : BigInt → Bool) : Nat → Nat → List Nat → Option (BigInt × List Nat)
  | 0, _, _ => none
  | fuel + 1, bitLen, s =>
    match randBig (bitLen / VALUE_LEN) s with
    | none => none
    | some (num0, s1) =>
      match setLowBit num0 with
      | none => none
      | some num =>
        match mod_div num E_BIGINT with
        | none => none
        | some (_, r) =>
          if r.val = 0 then gen_prime mr fuel bitLen s1
          else if mr num then some (num, s1) else gen_prime mr fuel bitLen s1

/-- `gen_keys` of `src/rsa.rs` lines 24-41. -/
def gen_keys (mr : BigInt → Bool) (fuel len : Nat) (s : List Nat) :
    Option ((BigInt × BigInt) × List Nat) :=
  match gen_prime mr fuel (len / 2) s with
  | none => none
  | some (p, s1) =>
    match gen_prime mr fuel (len / 2) s1 with
    | none => none
    | some (q, s2) =>
      let n := bigMul p q
      let phi_n := bigMul (bigSub p ONE) (bigSub q ONE)
      match mod_div phi_n E_BIGINT with
      | none => none
      | some (ediv, r) =>
        match r.to_int with
        | none => none
        | some rv =>
          let uv := extended_euclid E rv phi_n.val
          let d := BigInt.ofNat (derive_d phi_n.val uv.2.1 uv.2.2 ediv.val)
          some ((n, d), s2)

/-- Fuel-driven chunking of a list into consecutive pieces of `k` elements,
the last piece possibly shorter; mirrors Rust `slice::chunks(k)` for `k > 0`.
The fuel is always instantiated with the list length. -/
def chunksAux (k : Nat) : Nat → List Nat → List (List Nat)
  | 0, _ => []
  | fuel + 1, l => if l = [] then [] else l.take k :: chunksAux k fuel (l.drop k)

/-- Rust `slice::chunks(k)` on a byte slice, for `k > 0`. -/
def chunksOf (k : Nat) (l : List Nat) : List (List Nat) := chunksAux k l.length l

/-- The per-limb packing fold of `src/rsa.rs` lines 53-58: over an enumerated
group of at most four bytes, `acc + (x << (i * 8))`. -/
def packLimb (bytes : List Nat) : Nat :=
  bytes.enum.foldl (fun acc p => acc + (p.2 <<< (p.1 * 8))) 0

/-- `str_to_bigints` of `src/rsa.rs` lines 43-64: chunk the UTF-8 bytes of the
input into blocks of `max_length * 4` bytes, pack each group of 4 bytes
little-endian into one limb, `length` = number of limbs.  `none` models the
panic of `chunks(0)` when `max_length = 0`. -/
def str_to_bigints (input : List Nat) (max_length : Nat) : Option (List BigInt) :=
  if max_length * 4 = 0 then none
  else some <|
    (chunksOf (max_length * 4) input).map fun block =>
      let value := (chunksOf 4 block).map packLimb
      ⟨value, value.length⟩

/-- The byte-extraction loop of `src/rsa.rs` lines 73-79: for `i` in `1..=4`,
`(v & ((1 << (i * 8)) - 1)) >> ((i - 1) * 8)`, truncated to u8. -/
def limbBytes (v : Nat) : List Nat :=
  (List.range 4).map fun j => ((v &&& ((1 <<< ((j + 1) * 8)) - 1)) >>> (j * 8)) % 256

/-- Bounded-range byte test, as a Bool. -/
def inRange (lo hi b : Nat) : Bool := decide (lo ≤ b ∧ b ≤ hi)

/-- UTF-8 continuation byte. -/
def contB (b : Nat) : Bool := inRange 128 191 b

/-- UTF-8 validity of a byte sequence, as checked by Rust
`String::from_utf8` (RFC 3629: no overlong forms, no surrogates, maximum
U+10FFFF). -/
def validUtf8 : List Nat → Bool
  | [] => true
  | b :: rest =>
    if b < 128 then validUtf8 rest
    else if b < 194 then false
    else if b < 224 then
      match rest with
      | b1 :: r => contB b1 && validUtf8 r
      | [] => false
    else if b < 240 then
      match rest with
      | b1 :: b2 :: r =>
        (if b = 224 then inRange 160 191 b1
         else if b = 237 then inRange 128 159 b1
         else contB b1) && contB b2 && validUtf8 r
      | _ => false
    else if b < 245 then
      match rest with
      | b1 :: b2 :: b3 :: r =>
        (if b = 240 then inRange 144 191 b1
         else if b = 244 then inRange 128 143 b1
         else contB b1) && contB b2 && contB b3 && validUtf8 r
      | _ => false
    else false

/-- `strip_suffix("\0").unwrap_or(..)` of `src/rsa.rs` line 88: remove one
trailing NUL byte if present, otherwise keep the string unchanged. -/
def stripOneNul (l : List Nat) : List Nat :=
  if l.getLast? = some 0 then l.dropLast else l

/-- The byte sequence assembled by `bigints_to_str` (`src/rsa.rs` lines 68-85)
before UTF-8 decoding: for each block, four little-endian bytes per significant
limb, concatenated. -/
def decodedBytes (xs : List BigInt) : List Nat :=
  (xs.map fun x => ((x.value.take x.length).map limbBytes).flatten).flatten

/-- `bigints_to_str` of `src/rsa.rs` lines 66-89.  `none` models the panics:
the `value[0..length]` slice out of range, and the
`.expect("utf8 decode failed")` on invalid UTF-8.  On success the result is
the decoded string with at most one trailing NUL removed. -/
def bigints_to_str (xs : List BigInt) : Option (List Nat) :=
  if xs.all fun x => decide (x.length ≤ x.value.length) then
    if validUtf8 (decodedBytes xs) then some (stripOneNul (decodedBytes xs)) else none
  else none

/-- Lowercase hex digit character code. -/
def hexDigitChar (d : Nat) : Nat := if d < 10 then 48 + d else 87 + d

/-- Big-endian hex digits of a natural number, fuel-driven; `[]` for zero. -/
def natToHexAux : Nat → Nat → List Nat
  | 0, _ => []
  | fuel + 1, n =>
    if n = 0 then [] else natToHexAux fuel (n / 16) ++ [hexDigitChar (n % 16)]

/-- Modelled from the spec: `BigInt::fmt_hex` (missing from src/), big-endian
hex formatting of the numeric value with no fixed width (spec sections 4.1
and 6). -/
def BigInt.fmt_hex (x : BigInt) : List Nat :=
  if x.val = 0 then [48] else natToHexAux x.val x.val

/-- Value of one hex digit character (0-9, a-f, A-F). -/
def hexVal (c : Nat) : Option Nat :=
  if 48 ≤ c ∧ c ≤ 57 then some (c - 48)
  else if 97 ≤ c ∧ c ≤ 102 then some (c - 87)
  else if 65 ≤ c ∧ c ≤ 70 then some (c - 55)
  else none

/-- Modelled from the spec: `BigInt::from_hex` (missing from src/), hex-string
parsing that fails on an empty string or a malformed digit
(spec sections 4.1 and 7, ParseError). -/
def from_hex (s : List Nat) : Option BigInt :=
  if s = [] then none
  else
    (s.foldl (fun acc c => acc.bind fun a => (hexVal c).map fun d => a * 16 + d)
        (some 0)).map BigInt.ofNat

/-- Option-valued map over a list, failing if any element fails; models a
Rust iterator chain in which each element may panic. -/
def mapOpt (f : List Nat → Option BigInt) : List (List Nat) → Option (List BigInt)
  | [] => some []
  | s :: rest => (f s).bind fun b => (mapOpt f rest).map fun bs => b :: bs

/-- Rust `str::split(",")` on the byte representation: the comma-separated
pieces, with `[""]` for the empty string, as in `src/rsa.rs` lines 100-101. -/
def splitSep (sep : Nat) : List Nat → List (List Nat)
  | [] => [[]]
  | b :: rest =>
    match splitSep sep rest with
    | h :: t => if b = sep then [] :: h :: t else (b :: h) :: t
    | [] => [[]]

/-- Comma-join of `src/rsa.rs` line 96: `Vec<String>::join(",")`. -/
def joinSep (sep : Nat) : List (List Nat) → List Nat
  | [] => []
  | [x] => x
  | x :: xs => x ++ sep :: joinSep sep xs

/-- `encrypt` of `src/rsa.rs` lines 91-97. -/
def encrypt (input : List Nat) (n bm : BigInt) : Option (List Nat) :=
  (str_to_bigints input (n.length - 1)).map fun blocks =>
    joinSep 44 (blocks.map fun m => (mod_power m E_BIGINT bm n).fmt_hex)

/-- `decrypt` of `src/rsa.rs` lines 99-109: split on commas, parse each hex
block (panic on failure), apply `mod_power` with the private exponent,
reassemble text. -/
def decrypt (input : List Nat) (n bm d : BigInt) : Option (List Nat) :=
  (mapOpt from_hex (splitSep 44 input)).bind fun cs =>
    bigints_to_str (cs.map fun c => mod_power c d bm n)

/-- `sign` of `src/rsa.rs` lines 111-117. -/
def sign (input : List Nat) (n bm d : BigInt) : Option (List Nat) :=
  (str_to_bigints input (n.length - 1)).map fun blocks =>
    joinSep 44 (blocks.map fun m => (mod_power m d bm n).fmt_hex)

/-- `ver_sign` of `src/rsa.rs` lines 119-130: recover the text from the
signature with the public exponent and compare it with the supplied message. -/
def ver_sign (message input : List Nat) (n bm : BigInt) : Option (Bool × List Nat) :=
  (mapOpt from_hex (splitSep 44 input)).bind fun cs =>
    (bigints_to_str (cs.map fun c => mod_power c E_BIGINT bm n)).map fun m =>
      (m == message, m)

/-- The `{:08x}` formatting of `src/rsa.rs` line 136: lowercase big-endian hex
zero-padded on the left to at least 8 digits. -/
def hex8 (v : Nat) : List Nat :=
  List.replicate (8 - (natToHexAux v v).length) 48 ++ natToHexAux v v

/-- `fmt_key` of `src/rsa.rs` lines 133-139: the pair
`("<hex n>,<hex e>", "<hex n>,<hex d>")` with `e` printed as 8 hex digits. -/
def fmt_key (n d : BigInt) : List Nat × List Nat :=
  (n.fmt_hex ++ 44 :: hex8 E, n.fmt_hex ++ 44 :: d.fmt_hex)

/-- Rust `str::find(",")`: byte index of the first comma. -/
def findByte (b : Nat) (l : List Nat) : Option Nat := l.findIdx? (· == b)

/-- Rust `u64::from_str_radix(s, 16)`: optional leading plus sign, then a
nonempty run of hex digits, value below 2^64. -/
def parseU64Hex (s : List Nat) : Option Nat :=
  let s1 := match s with
    | 43 :: rest => rest
    | _ => s
  if s1 = [] then none
  else
    (s1.foldl (fun acc c => acc.bind fun a => (hexVal c).map fun d => a * 16 + d)
        (some 0)).bind fun v => if v < LIMB then some v else none

/-- Rust `str::is_char_boundary(i)`: true at index 0, at the byte length, or
at a position whose byte is not a UTF-8 continuation byte; false past the
end.  Rust `split_at(i)` and `&s[i..]` panic when this is false. -/
def isCharBoundary (l : List Nat) (i : Nat) : Bool :=
  if i = 0 then true
  else if i = l.length then true
  else if i < l.length then !contB (l.getD i 0)
  else false

/-- `key_from_str` of `src/rsa.rs` lines 141-161.  The outer `Option` models
panics (`none`): line 146 splits the private-key string at the comma index
found in the PUBLIC key, which panics when that index is past the end of the
private-key string or falls inside a multi-byte character, and lines 148-149
take `[1..]` of the split remainders, which panics on an empty remainder or
one whose second byte is a UTF-8 continuation byte.  (On the public-key side
the comma itself sits at the found index and the input is valid UTF-8, so
those two checks cannot fire for real Rust inputs.)  The inner `Except`
carries the `&'static str` error channel of the source. -/
def key_from_str (pubk privk : List Nat) :
    Option (Except String (BigInt × BigInt × Nat)) :=
  match findByte 44 pubk with
  | none => some (.error "Error parsing public key")
  | some i =>
    match findByte 44 pubk with
    | none => some (.error "Error parsing private key")
    | some j =>
      if isCharBoundary privk j then
        let sn1 := pubk.take i
        let se0 := pubk.drop i
        let sn2 := privk.take j
        let sd0 := privk.drop j
        if isCharBoundary se0 1 && isCharBoundary sd0 1 then
        match se0, sd0 with
        | _ :: se, _ :: sd =>
          (match parseU64Hex se with
           | none => some (.error "Error parsing e")
           | some e =>
             if e ≠ E then
               some (.error "Keys are not generated from this app, unsupported")
             else if sn1 ≠ sn2 then
               some (.error "n in public key and private key not matching")
             else
               match from_hex sn1 with
               | none => some (.error "Error parsing n: ")
               | some n =>
                 match from_hex sd with
                 | none => some (.error "Error parsing d: ")
                 | some d => some (.ok (n, d, n.length * VALUE_LEN)))
        | _, _ => none
        else none
      else none

/-! ### Basic facts about the numeric embedding -/

theorem natToLimbsAux_val : ∀ fuel n : Nat, n ≤ fuel →
    limbsVal (natToLimbsAux fuel n) = n := by
  intro fuel
  induction fuel with
  | zero => intro n h; have : n = 0 := by omega
            simp [this, natToLimbsAux, limbsVal]
  | succ f ih =>
    intro n h
    by_cases h0 : n = 0
    · simp [h0, natToLimbsAux, limbsVal]
    · have hL : 1 < LIMB := by norm_num [LIMB]
      have hlt : n / LIMB < n := Nat.div_lt_self (by omega) hL
      rw [natToLimbsAux, if_neg h0, limbsVal, ih (n / LIMB) (by omega)]
      exact Nat.mod_add_div n LIMB

theorem BigInt.ofNat_val (n : Nat) : (BigInt.ofNat n).val = n := by
  unfold BigInt.ofNat BigInt.val
  by_cases h : n = 0
  · simp [h, limbsVal]
  · simp only [h, if_false]
    rw [List.take_length]
    exact natToLimbsAux_val n n le_rfl

theorem limbsVal_lt : ∀ l : List Nat, (∀ v ∈ l, v < LIMB) →
    limbsVal l < LIMB ^ l.length := by
  intro l
  induction l with
  | nil => intro _; simp [limbsVal]
  | cons x rest ih =>
    intro h
    have hx : x < LIMB := h x (by simp)
    have hr : limbsVal rest < LIMB ^ rest.length := ih fun v hv => h v (by simp [hv])
    have : x + LIMB * limbsVal rest ≤ (LIMB - 1) + LIMB * (LIMB ^ rest.length - 1) := by
      have := Nat.mul_le_mul_left LIMB (Nat.le_sub_one_of_lt hr)
      omega
    have hL : 1 ≤ LIMB := by norm_num [LIMB]
    have hP : 1 ≤ LIMB ^ rest.length := Nat.one_le_pow _ _ (by norm_num [LIMB])
    calc limbsVal (x :: rest) = x + LIMB * limbsVal rest := rfl
      _ ≤ (LIMB - 1) + LIMB * (LIMB ^ rest.length - 1) := this
      _ < LIMB * LIMB ^ rest.length := by
          rw [Nat.mul_sub, Nat.mul_one]
          have : LIMB ≤ LIMB * LIMB ^ rest.length := Nat.le_mul_of_pos_right LIMB hP
          omega
      _ = LIMB ^ (x :: rest).length := by rw [List.length_cons, pow_succ, mul_comm]

theorem pow_le_limbsVal : ∀ l : List Nat, l ≠ [] → l.getLast? ≠ some 0 →
    LIMB ^ (l.length - 1) ≤ limbsVal l := by
  intro l
  induction l with
  | nil => intro h; exact absurd rfl h
  | cons x rest ih =>
    intro _ hlast
    match rest, ih with
    | [], _ =>
      have hx : x ≠ 0 := by
        intro hx0; exact hlast (by simp [hx0])
      simp only [List.length_cons, List.length_nil, limbsVal, Nat.add_sub_cancel,
        pow_zero, Nat.mul_zero, Nat.add_zero]
      omega
    | y :: t, ih =>
      have hlast2 : (y :: t).getLast? ≠ some 0 := by
        rwa [List.getLast?_cons_cons] at hlast
      have hr := ih (by simp) hlast2
      have hL : 0 < LIMB := by norm_num [LIMB]
      calc LIMB ^ ((x :: y :: t).length - 1)
          = LIMB * LIMB ^ ((y :: t).length - 1) := by
            have hlen : (x :: y :: t).length - 1 = ((y :: t).length - 1) + 1 := by
              simp [List.length_cons]
            rw [hlen, pow_succ, mul_comm]
        _ ≤ LIMB * limbsVal (y :: t) := Nat.mul_le_mul_left LIMB hr
        _ ≤ x + LIMB * limbsVal (y :: t) := Nat.le_add_left _ _
        _ = limbsVal (x :: y :: t) := rfl

/-! ### Extended Euclid and the private-exponent derivation (claim C2) -/

theorem egcdAux_spec : ∀ fuel a b : Nat, b < fuel →
    (egcdAux fuel a b).1 = Nat.gcd a b ∧
    (a : Int) * (egcdAux fuel a b).2.1 + (b : Int) * (egcdAux fuel a b).2.2
      = (Nat.gcd a b : Int) := by
  intro fuel
  induction fuel with
  | zero => intro a b h; omega
  | succ f ih =>
    intro a b h
    by_cases hb : b = 0
    · subst hb
      simp [egcdAux, Nat.gcd_zero_right]
    · have hblt : 0 < b := by omega
      have hmod : a % b < b := Nat.mod_lt a hblt
      have hrec := ih b (a % b) (by omega)
      have hgcd : Nat.gcd b (a % b) = Nat.gcd a b := by
        rw [Nat.gcd_comm b (a % b), ← Nat.gcd_rec b a, Nat.gcd_comm b a]
      constructor
      · rw [egcdAux, if_neg hb]
        rw [← hgcd]
        exact hrec.1
      · rw [egcdAux, if_neg hb]
        have hdiv : (b : Int) * ((a / b : Nat) : Int) + ((a % b : Nat) : Int) = (a : Int) := by
          exact_mod_cast Nat.div_add_mod a b
        rw [← hgcd]
        show (a : Int) * (egcdAux f b (a % b)).2.2
            + (b : Int) * ((egcdAux f b (a % b)).2.1
              - ((a / b : Nat) : Int) * (egcdAux f b (a % b)).2.2)
            = (Nat.gcd b (a % b) : Int)
        linear_combination hrec.2 - (egcdAux f b (a % b)).2.2 * hdiv

theorem extended_euclid_bezout (a b phi : Nat) (hphi : 0 < phi) :
    (a * (extended_euclid a b phi).2.1 + b * (extended_euclid a b phi).2.2) % phi
      = Nat.gcd a b % phi := by
  obtain ⟨hg, hbez⟩ := egcdAux_spec (b + 1) a b (by omega)
  set x := (egcdAux (b + 1) a b).2.1 with hx
  set y := (egcdAux (b + 1) a b).2.2 with hy
  have hphiZ : (phi : Int) ≠ 0 := by exact_mod_cast hphi.ne'
  have hu : ((x % (phi : Int)).toNat : Int) = x % (phi : Int) :=
    Int.toNat_of_nonneg (Int.emod_nonneg x hphiZ)
  have hv : ((y % (phi : Int)).toNat : Int) = y % (phi : Int) :=
    Int.toNat_of_nonneg (Int.emod_nonneg y hphiZ)
  have hmodeq : ((a : Int) * (x % phi) + (b : Int) * (y % phi)) % phi
      = ((a : Int) * x + (b : Int) * y) % phi := by
    have h1 : (x % (phi : Int)) % phi = x % phi := Int.emod_emod_of_dvd x dvd_rfl
    have h2 : (y % (phi : Int)) % phi = y % phi := Int.emod_emod_of_dvd y dvd_rfl
    have e1 : (a : Int) * (x % phi) ≡ (a : Int) * x [ZMOD phi] :=
      Int.ModEq.mul_left _ h1
    have e2 : (b : Int) * (y % phi) ≡ (b : Int) * y [ZMOD phi] :=
      Int.ModEq.mul_left _ h2
    exact e1.add e2
  have : ((a * (extended_euclid a b phi).2.1 + b * (extended_euclid a b phi).2.2 : Nat) : Int)
      % phi = ((Nat.gcd a b : Nat) : Int) % phi := by
    show (((a * (x % (phi : Int)).toNat + b * (y % (phi : Int)).toNat : Nat)) : Int) % phi = _
    push_cast
    rw [hu, hv, hmodeq, hbez]
  have hfin := this
  rw [← Int.natCast_mod, ← Int.natCast_mod] at hfin
  exact_mod_cast hfin

theorem derive_d_modEq (e phi ediv r u v : Nat) (h1 : 1 < phi)
    (hphi : phi = e * ediv + r) (hbez : (e * u + r * v) % phi = 1 % phi) :
    (e * derive_d phi u v ediv) % phi = 1 := by
  have hphi0 : 0 < phi := by omega
  set c := (v * ediv) % phi with hc
  have hclt : c < phi := Nat.mod_lt _ hphi0
  set u2 := if u < c then u + phi else u with hu2
  have hcle : c ≤ u2 := by
    by_cases h : u < c <;> simp [hu2, h] <;> omega
  have hu2u : u2 ≡ u [MOD phi] := by
    by_cases h : u < c
    · simp only [hu2, if_pos h]; exact Nat.add_modEq_right
    · simp only [hu2, if_neg h]; rfl
  have hcv : c ≡ v * ediv [MOD phi] := Nat.mod_modEq _ _
  have key : e * u2 ≡ 1 + e * c [MOD phi] := by
    have step1 : e * u2 ≡ e * u [MOD phi] := hu2u.mul_left e
    have h3 : e * u ≡ e * u + v * phi [MOD phi] :=
      (Nat.add_mul_mod_self_right (e * u) v phi).symm
    have h2 : e * u + v * phi = (e * u + r * v) + e * (v * ediv) := by
      rw [hphi]; ring
    rw [h2] at h3
    have h4 : (e * u + r * v) + e * (v * ediv) ≡ 1 + e * (v * ediv) [MOD phi] :=
      Nat.ModEq.add_right _ hbez
    have h5 : 1 + e * (v * ediv) ≡ 1 + e * c [MOD phi] :=
      Nat.ModEq.add_left 1 (hcv.mul_left e).symm
    exact step1.trans ((h3.trans h4).trans h5)
  have hle : e * c ≤ e * u2 := Nat.mul_le_mul_left e hcle
  have hsum : (e * u2 - e * c) + e * c ≡ 1 + e * c [MOD phi] := by
    rw [Nat.sub_add_cancel hle]; exact key
  have hfin : e * u2 - e * c ≡ 1 [MOD phi] := Nat.ModEq.add_right_cancel' _ hsum
  have hd : derive_d phi u v ediv = (u2 - c) % phi := by
    simp only [derive_d, hu2, hc]
  have : e * derive_d phi u v ediv ≡ e * (u2 - c) [MOD phi] := by
    rw [hd]; exact (Nat.mod_modEq _ _).mul_left e
  have hms : e * (u2 - c) = e * u2 - e * c := Nat.mul_sub e u2 c
  rw [hms] at this
  have := this.trans hfin
  rw [Nat.ModEq] at this
  rw [this]
  exact Nat.mod_eq_of_lt h1

/-- Claim C2: `gen_keys` derives the private exponent by unsigned
back-substitution: with `phi = e * quotient + remainder` and `(u, v)` the
coefficients returned by `extended_euclid` on `(e, remainder)`, it computes
`correction = (v * quotient) mod phi`, adds `phi` to `u` before subtracting
whenever `u < correction`, reduces mod `phi`, and the produced `d` satisfies
`(e * d) mod phi = 1`. -/
theorem claim_C2 (phi ediv r : Nat) (h1 : 1 < phi) (hphi : phi = E * ediv + r)
    (hg : Nat.gcd E r = 1) :
    (E * derive_d phi (extended_euclid E r phi).2.1
        (extended_euclid E r phi).2.2 ediv) % phi = 1 := by
  have hb := extended_euclid_bezout E r phi (by omega)
  rw [hg] at hb
  exact derive_d_modEq E phi ediv r _ _ h1 hphi hb

/-- Witness for claim C2 at `phi = 24`: the hypotheses hold and the derived
exponent inverts `E` modulo 24. -/
theorem claim_C2_witness :
    (1 < 24 ∧ 24 = E * 0 + 24 ∧ Nat.gcd E 24 = 1) ∧
    (E * derive_d 24 (extended_euclid E 24 24).2.1
        (extended_euclid E 24 24).2.2 0) % 24 = 1 :=
  ⟨⟨by norm_num, by norm_num [E], by decide⟩,
    claim_C2 24 0 24 (by norm_num) (by norm_num [E]) (by decide)⟩

/-! ### Concrete key material for evaluating the full pipeline -/

/-- Concrete two-limb RSA modulus `n = 8589934609 * 8589934621`
(a product of two 34-bit primes), as produced by `gen_keys`. -/
def nC : BigInt := ⟨[395136991725, 4], 2⟩

/-- The matching private exponent: the inverse of `E` modulo
`(8589934609 - 1) * (8589934621 - 1)`. -/
def dC : BigInt := BigInt.ofNat 71165928799752797077

/-- The Barrett constant for `nC`. -/
def bmC : BigInt := nC.barrett_m

/-- Claim C1 (code bug): with a valid key pair, `decrypt (encrypt "A")`
returns the three bytes `"A\x00\x00"`, not `"A"`, and
`ver_sign ("A", sign "A")` returns `(false, "A\x00\x00")`: the encoder pads
the one-byte final group with three zero bytes, but line 88 of `src/rsa.rs`
(`strip_suffix("\0")`) removes only ONE trailing NUL, so two of the three
padding bytes survive and the round trip fails.  The first two conjuncts
check that `(nC, dC)` really is an RSA key pair for the stated prime factors:
`nC` is their product and `E * dC = 1` modulo `phi`. -/
theorem claim_C1_counterexample :
    nC.val = 8589934609 * 8589934621 ∧
    (E * dC.val) % ((8589934609 - 1) * (8589934621 - 1)) = 1 ∧
    ((encrypt [65] nC bmC).bind fun ct => decrypt ct nC bmC dC) = some [65, 0, 0] ∧
    ((sign [65] nC bmC dC).bind fun sg => ver_sign [65] sg nC bmC)
      = some (false, [65, 0, 0]) := by
  refine ⟨by decide, by decide, ?_, ?_⟩ <;> decide

/-- Claim C4 counterexample: the one-block ciphertext `"ff"` decrypts (with
modulus 1000, private exponent 1) to the single significant byte 0xFF, whose
4-byte little-endian limb expansion `[255, 0, 0, 0]` is not valid UTF-8;
`decrypt` panics (`none`, the `expect("utf8 decode failed")` of
`src/rsa.rs` line 87) instead of returning any recoverable error value. -/
theorem claim_C4_counterexample :
    validUtf8 (decodedBytes
        [mod_power (BigInt.ofNat 255) ⟨[1], 1⟩ ⟨[0], 1⟩ ⟨[1000], 1⟩]) = false ∧
    decrypt [102, 102] ⟨[1000], 1⟩ ⟨[0], 1⟩ ⟨[1], 1⟩ = none := by
  exact ⟨by decide, by decide⟩

/-- Claim C9: `key_from_str` locates the comma only in the public-key string
(`src/rsa.rs` line 146 reuses `pub_key.find(",")` for the private key) and
splits the private-key string at that index.  For the well-formed public key
`"ab,0001bf3d"` (accepted with the matching private key `"ab,b"`), the
private-key string `"a"`, shorter than the comma index 2, makes the
`split_at` panic (`none`) instead of returning an `Err` value. -/
theorem claim_C9 :
    key_from_str [97, 98, 44, 48, 48, 48, 49, 98, 102, 51, 100] [97, 98, 44, 98]
      = some (.ok (⟨[171], 1⟩, ⟨[11], 1⟩, 64)) ∧
    key_from_str [97, 98, 44, 48, 48, 48, 49, 98, 102, 51, 100] [97] = none := by
  exact ⟨rfl, rfl⟩

/-- Claim C7: `fmt_key` returns exactly
`("<hex n>,<hex e>", "<hex n>,<hex d>")` where the exponent field is the
process-wide constant `E = 114493` (the largest prime below 114514) printed
as exactly 8 big-endian hex digits `"0001bf3d"`, while `hex n` and `hex d`
use no fixed width (shown by one-digit and two-digit samples). -/
theorem claim_C7 : ∀ n d : BigInt,
    fmt_key n d = (n.fmt_hex ++ 44 :: hex8 E, n.fmt_hex ++ 44 :: d.fmt_hex) ∧
    hex8 E = [48, 48, 48, 49, 98, 102, 51, 100] ∧
    (hex8 E).length = 8 ∧
    BigInt.fmt_hex ⟨[11], 1⟩ = [98] ∧
    BigInt.fmt_hex ⟨[255], 1⟩ = [102, 102] ∧
    Nat.Prime E ∧
    (∀ k, E < k → k < 114514 → ¬ Nat.Prime k) := by
  intro n d
  refine ⟨rfl, by decide, by decide, by decide, by decide, by norm_num [E], ?_⟩
  intro k h1 h2
  rw [E] at h1
  interval_cases k <;> norm_num

/-- Claim C8: `encrypt`, `decrypt`, `sign` and `ver_sign` are deterministic:
two invocations with equal arguments produce equal results (in the embedding
none of the four draws from the randomness stream, which only `gen_prime`
and `gen_keys` consume). -/
theorem claim_C8 :
    ∀ (i1 i2 m1 m2 : List Nat) (n1 n2 b1 b2 d1 d2 : BigInt),
      i1 = i2 → m1 = m2 → n1 = n2 → b1 = b2 → d1 = d2 →
      encrypt i1 n1 b1 = encrypt i2 n2 b2 ∧
      decrypt i1 n1 b1 d1 = decrypt i2 n2 b2 d2 ∧
      sign i1 n1 b1 d1 = sign i2 n2 b2 d2 ∧
      ver_sign m1 i1 n1 b1 = ver_sign m2 i2 n2 b2 := by
  intro i1 i2 m1 m2 n1 n2 b1 b2 d1 d2 h1 h2 h3 h4 h5
  subst h1; subst h2; subst h3; subst h4; subst h5
  exact ⟨rfl, rfl, rfl, rfl⟩

/-- Witness for claim C8 at concrete arguments. -/
theorem claim_C8_witness :
    encrypt [65] nC bmC = encrypt [65] nC bmC ∧
    decrypt [65] nC bmC dC = decrypt [65] nC bmC dC ∧
    sign [65] nC bmC dC = sign [65] nC bmC dC ∧
    ver_sign [66] [65] nC bmC = ver_sign [66] [65] nC bmC :=
  claim_C8 [65] [65] [66] [66] nC nC bmC bmC dC dC rfl rfl rfl rfl rfl

/-- Claim C10: for a modulus of at least 2 significant limbs, encrypting or
signing the empty string yields the empty string: the empty byte sequence
produces zero blocks and the comma-join of zero hex blocks is empty. -/
theorem claim_C10 : ∀ n bm d : BigInt, 2 ≤ n.length →
    encrypt [] n bm = some [] ∧ sign [] n bm d = some [] := by
  intro n bm d h
  have hk : ¬ (n.length - 1) * 4 = 0 := by omega
  constructor
  · unfold encrypt str_to_bigints
    rw [if_neg hk]
    simp [chunksOf, chunksAux, joinSep]
  · unfold sign str_to_bigints
    rw [if_neg hk]
    simp [chunksOf, chunksAux, joinSep]

/-- Witness for claim C10 with the two-limb modulus `nC`. -/
theorem claim_C10_witness :
    2 ≤ nC.length ∧ encrypt [] nC bmC = some [] ∧ sign [] nC bmC dC = some [] :=
  ⟨by decide, (claim_C10 nC bmC dC (by decide)).1, (claim_C10 nC bmC dC (by decide)).2⟩

/-! ### Block encoding bounds (claim C3) -/

/-- Little-endian byte packing, the clean recursive form of `packLimb`. -/
def packLE : List Nat → Nat
  | [] => 0
  | b :: bs => b + 256 * packLE bs

theorem packAux_foldl : ∀ (l : List Nat) (j acc : Nat),
    (List.enumFrom j l).foldl (fun a p => a + (p.2 <<< (p.1 * 8))) acc
      = acc + 2 ^ (8 * j) * packLE l := by
  intro l
  induction l with
  | nil => intro j acc; simp [packLE]
  | cons b bs ih =>
    intro j acc
    simp only [List.enumFrom, List.foldl, packLE]
    rw [ih (j + 1)]
    rw [Nat.shiftLeft_eq]
    ring

theorem packLimb_eq_packLE (l : List Nat) : packLimb l = packLE l := by
  unfold packLimb
  have : l.enum = List.enumFrom 0 l := rfl
  rw [this, packAux_foldl]
  simp

theorem packLE_lt : ∀ l : List Nat, (∀ b ∈ l, b < 256) →
    packLE l < 2 ^ (8 * l.length) := by
  intro l
  induction l with
  | nil => intro _; simp [packLE]
  | cons b bs ih =>
    intro h
    have hb : b < 256 := h b (by simp)
    have hr : packLE bs < 2 ^ (8 * bs.length) := ih fun x hx => h x (by simp [hx])
    simp only [packLE, List.length_cons]
    have : 8 * (bs.length + 1) = 8 * bs.length + 8 := by ring
    rw [this, pow_add]
    have h28 : (2 : Nat) ^ 8 = 256 := by norm_num
    rw [h28]
    nlinarith

theorem chunksAux_nil (k : Nat) : ∀ fuel, chunksAux k fuel [] = [] := by
  intro fuel; cases fuel <;> simp [chunksAux]

theorem chunksAux_mem_subset (k : Nat) : ∀ fuel (l c : List Nat),
    c ∈ chunksAux k fuel l → c.length ≤ k ∧ ∀ x ∈ c, x ∈ l := by
  intro fuel
  induction fuel with
  | zero => intro l c h; simp [chunksAux] at h
  | succ f ih =>
    intro l c h
    by_cases hl : l = []
    · simp [chunksAux, hl] at h
    · rw [chunksAux, if_neg hl] at h
      rcases List.mem_cons.mp h with h1 | h2
      · subst h1
        refine ⟨by simp, fun x hx => List.take_subset k l hx⟩
      · obtain ⟨hlen, hsub⟩ := ih (l.drop k) c h2
        exact ⟨hlen, fun x hx => List.drop_subset k l (hsub x hx)⟩

theorem chunksAux_count (k : Nat) (hk : 1 ≤ k) : ∀ fuel (l : List Nat) (m : Nat),
    l.length ≤ fuel → l.length ≤ k * m → (chunksAux k fuel l).length ≤ m := by
  intro fuel
  induction fuel with
  | zero =>
    intro l m hf _
    have : l = [] := List.eq_nil_of_length_eq_zero (by omega)
    simp [this, chunksAux_nil]
  | succ f ih =>
    intro l m hf hm
    by_cases hl : l = []
    · simp [hl, chunksAux_nil]
    · have hlpos : 0 < l.length := List.length_pos.mpr hl
      have hmpos : 0 < m := by
        rcases Nat.eq_zero_or_pos m with h0 | h1
        · rw [h0, Nat.mul_zero] at hm; omega
        · exact h1
      rw [chunksAux, if_neg hl]
      simp only [List.length_cons]
      have hdrop : (l.drop k).length ≤ f := by
        rw [List.length_drop]; omega
      have hdrop2 : (l.drop k).length ≤ k * (m - 1) := by
        rw [List.length_drop, Nat.mul_sub, Nat.mul_one]
        omega
      have := ih (l.drop k) (m - 1) hdrop hdrop2
      omega

theorem chunksAux_ne_nil (k : Nat) : ∀ fuel (l : List Nat), l ≠ [] → 1 ≤ fuel →
    chunksAux k fuel l ≠ [] := by
  intro fuel l hl hf
  match fuel, hf with
  | f + 1, _ => rw [chunksAux, if_neg hl]; simp

theorem chunksAux_dropLast (k : Nat) (hk : 1 ≤ k) : ∀ fuel (l : List Nat),
    l.length ≤ fuel → ∀ c ∈ (chunksAux k fuel l).dropLast, c.length = k := by
  intro fuel
  induction fuel with
  | zero =>
    intro l hf c hc
    have : l = [] := List.eq_nil_of_length_eq_zero (by omega)
    simp [this, chunksAux_nil] at hc
  | succ f ih =>
    intro l hf c hc
    by_cases hl : l = []
    · simp [hl, chunksAux_nil] at hc
    · rw [chunksAux, if_neg hl] at hc
      by_cases hd : l.drop k = []
      · rw [hd, chunksAux_nil] at hc
        simp at hc
      · have hlen : k < l.length := by
          by_contra hcon
          exact hd (List.drop_eq_nil_iff.mpr (by omega))
        have hne : chunksAux k f (l.drop k) ≠ [] := by
          apply chunksAux_ne_nil k f (l.drop k) hd
          have : 0 < (l.drop k).length := List.length_pos.mpr hd
          have : (l.drop k).length ≤ f := by rw [List.length_drop]; omega
          omega
        rw [List.dropLast_cons_of_ne_nil hne] at hc
        rcases List.mem_cons.mp hc with h1 | h2
        · subst h1
          rw [List.length_take]
          omega
        · exact ih (l.drop k) (by rw [List.length_drop]; omega) c h2

/-- Claim C3: for any input byte sequence and any well-formed modulus `n`
with at least 2 significant limbs, `str_to_bigints input (n.length - 1)`
(the encoding used by `encrypt` and `sign`) splits the bytes into chunks of
exactly `(n.length - 1) * 4` bytes (the final chunk possibly shorter), packs
each consecutive group of 4 bytes little-endian into one limb, and every
resulting block has numeric value strictly below `n`. -/
theorem claim_C3 : ∀ (input : List Nat) (n : BigInt),
    (∀ b ∈ input, b < 256) → 2 ≤ n.length → n.length ≤ n.value.length →
    (∀ v ∈ n.value, v < LIMB) → (n.value.take n.length).getLast? ≠ some 0 →
    ∃ blocks,
      str_to_bigints input (n.length - 1) = some blocks ∧
      blocks = (chunksOf ((n.length - 1) * 4) input).map (fun block =>
          ⟨(chunksOf 4 block).map packLimb,
            ((chunksOf 4 block).map packLimb).length⟩) ∧
      (∀ c ∈ (chunksOf ((n.length - 1) * 4) input).dropLast,
          c.length = (n.length - 1) * 4) ∧
      (∀ b0 b1 b2 b3 : Nat,
          packLimb [b0, b1, b2, b3] = b0 + 2 ^ 8 * b1 + 2 ^ 16 * b2 + 2 ^ 24 * b3) ∧
      (∀ blk ∈ blocks, blk.val < n.val) := by
  intro input n hbytes hn2 hnstore hnlimb hnlast
  have hk : ¬ (n.length - 1) * 4 = 0 := by omega
  have hk1 : 1 ≤ (n.length - 1) * 4 := by omega
  refine ⟨_, by rw [str_to_bigints, if_neg hk], rfl, ?_, ?_, ?_⟩
  · exact fun c hc => chunksAux_dropLast _ hk1 _ input le_rfl c hc
  · intro b0 b1 b2 b3
    rw [packLimb_eq_packLE]
    simp [packLE]
    ring
  · intro blk hblk
    rcases List.mem_map.mp hblk with ⟨block, hblock, hpack⟩
    obtain ⟨hblen, hbsub⟩ := chunksAux_mem_subset _ _ input block hblock
    subst hpack
    have hvlen : ((chunksOf 4 block).map packLimb).length ≤ n.length - 1 := by
      rw [List.length_map]
      apply chunksAux_count 4 (by norm_num) _ block (n.length - 1) le_rfl
      omega
    have hlimbs : ∀ x ∈ (chunksOf 4 block).map packLimb, x < LIMB := by
      intro x hx
      rcases List.mem_map.mp hx with ⟨g, hg, hgx⟩
      obtain ⟨hglen, hgsub⟩ := chunksAux_mem_subset _ _ block g hg
      subst hgx
      rw [packLimb_eq_packLE]
      have := packLE_lt g fun b hb => hbytes b (hbsub b (hgsub b hb))
      have hmono : (2 : Nat) ^ (8 * g.length) ≤ 2 ^ 32 :=
        Nat.pow_le_pow_right (by norm_num) (by omega)
      have h32 : (2 : Nat) ^ 32 ≤ LIMB := by norm_num [LIMB]
      omega
    have hvval : BigInt.val ⟨(chunksOf 4 block).map packLimb,
        ((chunksOf 4 block).map packLimb).length⟩
        = limbsVal ((chunksOf 4 block).map packLimb) := by
      unfold BigInt.val
      rw [List.take_length]
    rw [hvval]
    have h1 : limbsVal ((chunksOf 4 block).map packLimb)
        < LIMB ^ ((chunksOf 4 block).map packLimb).length :=
      limbsVal_lt _ hlimbs
    have h2 : LIMB ^ ((chunksOf 4 block).map packLimb).length ≤ LIMB ^ (n.length - 1) :=
      Nat.pow_le_pow_right (by norm_num [LIMB]) hvlen
    have htakelen : (n.value.take n.length).length = n.length := by
      rw [List.length_take]; omega
    have htakene : n.value.take n.length ≠ [] := by
      intro hcon
      have := congrArg List.length hcon
      rw [htakelen] at this
      simp at this
      omega
    have h3 : LIMB ^ (n.length - 1) ≤ n.val := by
      have := pow_le_limbsVal (n.value.take n.length) htakene hnlast
      rw [htakelen] at this
      exact this
    omega

/-! ### Key generation (claim C6) -/

theorem E_BIGINT_val : E_BIGINT.val = E := rfl

theorem gen_prime_spec (mr : BigInt → Bool) : ∀ fuel bitLen s p s1,
    gen_prime mr fuel bitLen s = some (p, s1) →
    p.length = bitLen / VALUE_LEN ∧ p.value.length = bitLen / VALUE_LEN ∧
    p.val % 2 = 1 ∧ ¬ (E ∣ p.val) ∧ mr p = true := by
  intro fuel
  induction fuel with
  | zero => intro bitLen s p s1 h; simp [gen_prime] at h
  | succ f ih =>
    intro bitLen s p s1 h
    rw [gen_prime] at h
    by_cases hks : bitLen / VALUE_LEN ≤ s.length
    case neg =>
      rw [randBig, if_neg hks] at h
      simp at h
    case pos =>
    rw [randBig, if_pos hks] at h
    cases hv : (s.take (bitLen / VALUE_LEN)).map (· % LIMB) with
    | nil =>
      rw [hv] at h
      simp [setLowBit] at h
    | cons v rest =>
      rw [hv] at h
      simp only [setLowBit] at h
      set num : BigInt := ⟨(v ||| 1) :: rest, bitLen / VALUE_LEN⟩ with hnum
      have hmd : mod_div num E_BIGINT
          = some (BigInt.ofNat (num.val / E), BigInt.ofNat (num.val % E)) := by
        rw [mod_div, E_BIGINT_val, if_neg (by norm_num [E])]
      rw [hmd] at h
      dsimp only [] at h
      by_cases hr0 : (BigInt.ofNat (num.val % E)).val = 0
      · rw [if_pos hr0] at h
        exact ih bitLen _ p s1 h
      · rw [if_neg hr0] at h
        by_cases hmr : mr num
        · rw [if_pos hmr] at h
          simp only [Option.some.injEq, Prod.mk.injEq] at h
          obtain ⟨hp, hs⟩ := h
          have hlen : ((v ||| 1) :: rest).length = bitLen / VALUE_LEN := by
            have h1 := congrArg List.length hv
            rw [List.length_map, List.length_take, min_eq_left hks] at h1
            simp only [List.length_cons] at h1 ⊢
            omega
          have hk1 : 1 ≤ bitLen / VALUE_LEN := by
            rw [← hlen]; simp
          refine ⟨by rw [← hp], by rw [← hp]; exact hlen, ?_, ?_, by rw [← hp]; exact hmr⟩
          · rw [← hp]
            show num.val % 2 = 1
            have : num.val = (v ||| 1)
                + LIMB * limbsVal (rest.take (bitLen / VALUE_LEN - 1)) := by
              show limbsVal (((v ||| 1) :: rest).take (bitLen / VALUE_LEN)) = _
              obtain ⟨k, hkeq⟩ : ∃ k, bitLen / VALUE_LEN = k + 1 :=
                ⟨bitLen / VALUE_LEN - 1, by omega⟩
              rw [hkeq, List.take_succ_cons, limbsVal]
              simp
            rw [this]
            have hLIMB : LIMB * limbsVal (rest.take (bitLen / VALUE_LEN - 1))
                = (2 ^ 63 * limbsVal (rest.take (bitLen / VALUE_LEN - 1))) * 2 := by
              rw [LIMB]; ring
            rw [hLIMB, Nat.add_mul_mod_self_right]
            simp [Nat.or_mod_two_eq_one]
          · rw [← hp]
            rw [BigInt.ofNat_val] at hr0
            intro hdvd
            exact hr0 (Nat.dvd_iff_mod_eq_zero.mp hdvd)
        · rw [if_neg hmr] at h
          exact ih bitLen _ p s1 h

/-- Claim C6: whenever `gen_keys mr fuel len s` succeeds with `(n, d)`, the
two probable primes `p` and `q` were drawn by `gen_prime` from `len / 2` bits
of randomness each (`(len / 2) / 64` limbs), each is odd, not divisible by
`E = 114493`, and passes the probable-prime test `mr`; `n = p * q`, and `d`
is derived by the section-4.5 back-substitution with modulus
`phi = (p - 1) * (q - 1)`. -/
theorem claim_C6 (mr : BigInt → Bool) : ∀ fuel len s n d s2,
    gen_keys mr fuel len s = some ((n, d), s2) →
    ∃ p q s1,
      gen_prime mr fuel (len / 2) s = some (p, s1) ∧
      gen_prime mr fuel (len / 2) s1 = some (q, s2) ∧
      p.length = (len / 2) / VALUE_LEN ∧ q.length = (len / 2) / VALUE_LEN ∧
      p.val % 2 = 1 ∧ q.val % 2 = 1 ∧
      ¬ (E ∣ p.val) ∧ ¬ (E ∣ q.val) ∧ mr p = true ∧ mr q = true ∧
      n.val = p.val * q.val ∧
      d.val = derive_d ((p.val - 1) * (q.val - 1))
          (extended_euclid E (((p.val - 1) * (q.val - 1)) % E)
            ((p.val - 1) * (q.val - 1))).2.1
          (extended_euclid E (((p.val - 1) * (q.val - 1)) % E)
            ((p.val - 1) * (q.val - 1))).2.2
          (((p.val - 1) * (q.val - 1)) / E) := by
  intro fuel len s n d s2 h
  rw [gen_keys] at h
  cases hp : gen_prime mr fuel (len / 2) s with
  | none => rw [hp] at h; simp at h
  | some ps =>
    obtain ⟨p, s1⟩ := ps
    rw [hp] at h
    dsimp only [] at h
    cases hq : gen_prime mr fuel (len / 2) s1 with
    | none => rw [hq] at h; simp at h
    | some qs =>
      obtain ⟨q, s2x⟩ := qs
      rw [hq] at h
      dsimp only [] at h
      set phiB := bigMul (bigSub p ONE) (bigSub q ONE) with hphiB
      have hmd : mod_div phiB E_BIGINT
          = some (BigInt.ofNat (phiB.val / E), BigInt.ofNat (phiB.val % E)) := by
        rw [mod_div, E_BIGINT_val, if_neg (by norm_num [E])]
      rw [hmd] at h
      dsimp only [] at h
      have hti : (BigInt.ofNat (phiB.val % E)).to_int = some (phiB.val % E) := by
        rw [BigInt.to_int, BigInt.ofNat_val, if_pos]
        have h1 : phiB.val % E < E := Nat.mod_lt _ (by norm_num [E])
        have h2 : E < LIMB := by norm_num [E, LIMB]
        omega
      rw [hti] at h
      dsimp only [] at h
      simp only [Option.some.injEq, Prod.mk.injEq] at h
      obtain ⟨⟨hn, hd⟩, hs2⟩ := h
      obtain ⟨hpl, hpvl, hpodd, hpdvd, hpmr⟩ := gen_prime_spec mr fuel (len / 2) s p s1 hp
      obtain ⟨hql, hqvl, hqodd, hqdvd, hqmr⟩ := gen_prime_spec mr fuel (len / 2) s1 q s2x hq
      have hphival : phiB.val = (p.val - 1) * (q.val - 1) := by
        rw [hphiB, bigMul, BigInt.ofNat_val, bigSub, bigSub, BigInt.ofNat_val,
          BigInt.ofNat_val]
        rfl
      refine ⟨p, q, s1, rfl, by rw [hs2] at hq; exact hq, hpl, hql, hpodd, hqodd,
        hpdvd, hqdvd, hpmr, hqmr, ?_, ?_⟩
      · rw [← hn]
        show (BigInt.ofNat (p.val * q.val)).val = p.val * q.val
        rw [BigInt.ofNat_val]
      · rw [← hd]
        simp only [BigInt.ofNat_val]
        rw [hphival]

/-- An always-accepting probable-prime test, for concrete witnesses. -/
def mrTrue : BigInt → Bool := fun _ => true

/-- Witness for claim C6: a concrete successful run of `gen_keys` with
stream `[5, 7]` produces `n = 35`, `d = 13`, and the existence statement
holds at it. -/
theorem claim_C6_witness :
    ∃ p q s1,
      gen_prime mrTrue 1 (128 / 2) [5, 7] = some (p, s1) ∧
      gen_prime mrTrue 1 (128 / 2) s1 = some (q, []) ∧
      p.length = (128 / 2) / VALUE_LEN ∧ q.length = (128 / 2) / VALUE_LEN ∧
      p.val % 2 = 1 ∧ q.val % 2 = 1 ∧
      ¬ (E ∣ p.val) ∧ ¬ (E ∣ q.val) ∧ mrTrue p = true ∧ mrTrue q = true ∧
      (BigInt.mk [35] 1).val = p.val * q.val ∧
      (BigInt.mk [13] 1).val = derive_d ((p.val - 1) * (q.val - 1))
          (extended_euclid E (((p.val - 1) * (q.val - 1)) % E)
            ((p.val - 1) * (q.val - 1))).2.1
          (extended_euclid E (((p.val - 1) * (q.val - 1)) % E)
            ((p.val - 1) * (q.val - 1))).2.2
          (((p.val - 1) * (q.val - 1)) / E) :=
  claim_C6 mrTrue 1 128 [5, 7] ⟨[35], 1⟩ ⟨[13], 1⟩ [] (by decide)

/-- Witness for claim C3 with the five-byte input "ABCDE" and the two-limb
modulus `nC`. -/
theorem claim_C3_witness :
    ∃ blocks,
      str_to_bigints [65, 66, 67, 68, 69] (nC.length - 1) = some blocks ∧
      blocks = (chunksOf ((nC.length - 1) * 4) [65, 66, 67, 68, 69]).map (fun block =>
          ⟨(chunksOf 4 block).map packLimb,
            ((chunksOf 4 block).map packLimb).length⟩) ∧
      (∀ c ∈ (chunksOf ((nC.length - 1) * 4) [65, 66, 67, 68, 69]).dropLast,
          c.length = (nC.length - 1) * 4) ∧
      (∀ b0 b1 b2 b3 : Nat,
          packLimb [b0, b1, b2, b3] = b0 + 2 ^ 8 * b1 + 2 ^ 16 * b2 + 2 ^ 24 * b3) ∧
      (∀ blk ∈ blocks, blk.val < nC.val) :=
  claim_C3 [65, 66, 67, 68, 69] nC (by decide) (by decide) (by decide)
    (by decide) (by decide)

/-! ### Error behaviour of decrypt / ver_sign (claim C4) and key parsing
(claim C5) -/

/-- Claim C4, amended: whenever the comma-split hex blocks of the input all
parse and the recovered bytes are NOT valid text, `decrypt` and `ver_sign` do
not return an error value to the caller: they abort by panic
(`expect("utf8 decode failed")`, modelled as `none`), producing neither a
recoverable error nor partial output. -/
theorem claim_C4_amended : ∀ (input : List Nat) (n bm d : BigInt) (cs : List BigInt),
    mapOpt from_hex (splitSep 44 input) = some cs →
    (validUtf8 (decodedBytes (cs.map fun c => mod_power c d bm n)) = false →
      decrypt input n bm d = none) ∧
    (validUtf8 (decodedBytes (cs.map fun c => mod_power c E_BIGINT bm n)) = false →
      ∀ msg, ver_sign msg input n bm = none) := by
  intro input n bm d cs h
  constructor
  · intro hv
    rw [decrypt, h]
    show bigints_to_str (cs.map fun c => mod_power c d bm n) = none
    rw [bigints_to_str, hv]
    simp
  · intro hv msg
    rw [ver_sign, h]
    show (bigints_to_str (cs.map fun c => mod_power c E_BIGINT bm n)).map _ = none
    rw [bigints_to_str, hv]
    simp

/-- Witness for the amended claim C4 at the concrete ciphertext `"ff"`. -/
theorem claim_C4_amended_witness :
    decrypt [101, 50] ⟨[1000], 1⟩ ⟨[0], 1⟩ ⟨[1], 1⟩ = none ∧
    ver_sign [65] [101, 50] ⟨[1000], 1⟩ ⟨[0], 1⟩ = none :=
  ⟨(claim_C4_amended [101, 50] ⟨[1000], 1⟩ ⟨[0], 1⟩ ⟨[1], 1⟩ [BigInt.ofNat 226]
      (by decide)).1 (by decide),
   (claim_C4_amended [101, 50] ⟨[1000], 1⟩ ⟨[0], 1⟩ ⟨[1], 1⟩ [BigInt.ofNat 226]
      (by decide)).2 (by decide) [65]⟩

/-- Claim C5 counterexample: for the public key `"aaaa,0001bf3d"` (exponent
field equal to `E`) and the private-key string `"b,ff"`, whose modulus field
`"b"` differs from the public modulus `"aaaa"`, `key_from_str` panics
(`none`: it splits the private string at the public comma index 4, leaving an
empty remainder that the `[1..]` slice of `src/rsa.rs` line 149 overruns)
instead of returning the claimed typed validation error. -/
theorem claim_C5_counterexample :
    findByte 44 [98, 44, 102, 102] = some 1 ∧
    [98, 44, 102, 102].take 1 ≠ [97, 97, 97, 97, 44, 48, 48, 48, 49, 98, 102, 51, 100].take 4 ∧
    key_from_str [97, 97, 97, 97, 44, 48, 48, 48, 49, 98, 102, 51, 100]
        [98, 44, 102, 102] = none := by
  exact ⟨rfl, by decide, rfl⟩

/-- Claim C5, amended: PROVIDED the private-key string is longer than the
public key's first-comma index `i` and the two indices the code slices at
fall on character boundaries of the private key (index `i` for the
`split_at` of line 146 and index 1 of the remainder for the `[1..]` of
line 149; index 1 of the public remainder is a boundary automatically for
valid UTF-8 public keys, and all of these hold for the ASCII hex-and-comma
strings keys are made of), `key_from_str` never panics: it returns an error
value whenever the parsed exponent field differs from `E` or the `i`-byte
modulus prefixes of the two strings differ, and returns `Ok` only when the
exponent field parses to exactly `E` and the prefixes agree. -/
theorem claim_C5_amended : ∀ (pubk privk : List Nat) (i : Nat),
    findByte 44 pubk = some i → i < privk.length →
    isCharBoundary privk i = true →
    isCharBoundary (pubk.drop i) 1 = true →
    isCharBoundary (privk.drop i) 1 = true →
    (∃ r, key_from_str pubk privk = some r) ∧
    (∀ e, parseU64Hex (pubk.drop i).tail = some e → e ≠ E →
       key_from_str pubk privk
         = some (.error "Keys are not generated from this app, unsupported")) ∧
    (parseU64Hex (pubk.drop i).tail = some E → pubk.take i ≠ privk.take i →
       key_from_str pubk privk
         = some (.error "n in public key and private key not matching")) ∧
    (∀ n d len, key_from_str pubk privk = some (.ok (n, d, len)) →
       parseU64Hex (pubk.drop i).tail = some E ∧ pubk.take i = privk.take i) := by
  intro pubk privk i hfind hlen hb1 hb2 hb3
  have hipub : i < pubk.length := (List.findIdx?_eq_some_iff_findIdx_eq.mp hfind).1
  have hse0 : pubk.drop i ≠ [] := by
    rw [Ne, List.drop_eq_nil_iff]; omega
  have hsd0 : privk.drop i ≠ [] := by
    rw [Ne, List.drop_eq_nil_iff]; omega
  obtain ⟨a, se, hse⟩ := List.exists_cons_of_ne_nil hse0
  obtain ⟨b, sd, hsd⟩ := List.exists_cons_of_ne_nil hsd0
  have htail : (pubk.drop i).tail = se := by rw [hse]; rfl
  have hkfs : key_from_str pubk privk
      = (match parseU64Hex se with
         | none => some (.error "Error parsing e")
         | some e =>
           if e ≠ E then
             some (.error "Keys are not generated from this app, unsupported")
           else if pubk.take i ≠ privk.take i then
             some (.error "n in public key and private key not matching")
           else
             match from_hex (pubk.take i) with
             | none => some (.error "Error parsing n: ")
             | some n =>
               match from_hex sd with
               | none => some (.error "Error parsing d: ")
               | some d => some (.ok (n, d, n.length * VALUE_LEN))) := by
    rw [key_from_str, hfind]
    dsimp only []
    rw [if_pos hb1]
    rw [if_pos (by simp [hb2, hb3])]
    rw [hse, hsd]
  rw [htail, hkfs]
  refine ⟨?_, ?_, ?_, ?_⟩
  · cases hpe : parseU64Hex se with
    | none => exact ⟨_, rfl⟩
    | some e =>
      dsimp only []
      by_cases he : e = E
      · subst he
        rw [if_neg (by simp)]
        by_cases hsn : pubk.take i = privk.take i
        · rw [if_neg (not_not_intro hsn)]
          cases from_hex (pubk.take i) with
          | none => exact ⟨_, rfl⟩
          | some n =>
            cases from_hex sd with
            | none => exact ⟨_, rfl⟩
            | some d => exact ⟨_, rfl⟩
        · rw [if_pos (by simp [hsn])]
          exact ⟨_, rfl⟩
      · rw [if_pos (by simp [he])]
        exact ⟨_, rfl⟩
  · intro e hpe he
    rw [hpe]
    dsimp only []
    rw [if_pos he]
  · intro hpe hsn
    rw [hpe]
    dsimp only []
    rw [if_neg (by simp), if_pos hsn]
  · intro n d len hok
    cases hpe : parseU64Hex se with
    | none => rw [hpe] at hok; simp at hok
    | some e =>
      rw [hpe] at hok
      dsimp only [] at hok
      by_cases he : e = E
      · subst he
        rw [if_neg (by simp)] at hok
        by_cases hsn : pubk.take i = privk.take i
        · exact ⟨rfl, hsn⟩
        · rw [if_pos hsn] at hok
          simp at hok
      · rw [if_pos (by simp [he])] at hok
        simp at hok

/-- Witness for the amended claim C5: with public key `"aaaa,0001bf3d"` and
the in-range private key `"aaab,ff"` whose 4-byte modulus prefix differs,
`key_from_str` returns the modulus-mismatch error value. -/
theorem claim_C5_witness :
    key_from_str [97, 97, 97, 97, 44, 48, 48, 48, 49, 98, 102, 51, 100]
        [97, 97, 97, 98, 44, 102, 102]
      = some (.error "n in public key and private key not matching") :=
  (claim_C5_amended [97, 97, 97, 97, 44, 48, 48, 48, 49, 98, 102, 51, 100]
      [97, 97, 97, 98, 44, 102, 102] 4 rfl (by decide) (by decide) (by decide)
      (by decide)).2.2.1 (by decide) (by decide)

/-- Faithfulness of the panic model at non-ASCII private keys: with public
key `"a,0001bf3d"` (comma index 1) and private key `"é"` (bytes 195, 169),
the `split_at` of `src/rsa.rs` line 146 lands inside the two-byte character
and panics; with public key `"aa,0001bf3d"` (comma index 2) and private key
`"aaé"`, the `[1..]` slice of line 149 lands inside the character and panics.
Both are `none` in the model even though each private key is longer than the
comma index. -/
theorem key_from_str_boundary_panics :
    key_from_str [97, 44, 48, 48, 48, 49, 98, 102, 51, 100] [195, 169] = none ∧
    key_from_str [97, 97, 44, 48, 48, 48, 49, 98, 102, 51, 100]
        [97, 97, 195, 169] = none := by
  exact ⟨rfl, rfl⟩
